import Mathlib

/-!
Shallow embedding of the sp500-automated-data-pipeline repository.

Sources embedded:
- src/sp500_pipeline.py : clean_data, calculate_moving_averages, save_to_postgres
- src/dashboard.py : sma_crossover_backtest (indicator warm-up, date slicing,
  empty-slice handling), the period anchoring at module level, and the
  win-rate rendering branch.

The portfolio replay and crossover detection are performed by a third-party
vectorized backtesting library that is not part of this repository; those
parts are modelled from the spec (sections 4.2 and 4.4) and are marked as
such in their doc comments.

Conventions: dates are integers (one unit per calendar day); prices and cash
are rationals; a missing value (NaN) is `none`.
-/

namespace SP500

/-- A row of the fetched OHLCV data frame (src/sp500_pipeline.py). A `none`
field models a missing (NaN) cell. -/
structure Row where
  date : ℤ
  opn : Option ℚ
  high : Option ℚ
  low : Option ℚ
  close : Option ℚ
  volume : Option ℚ
deriving DecidableEq

/-- All five required columns are present in this row; mirrors the
`df.dropna(subset=existing_cols)` predicate of clean_data step 1
(src/sp500_pipeline.py:86) with all five columns existing. -/
def allPresent (r : Row) : Bool :=
  r.opn.isSome && r.high.isSome && r.low.isSome && r.close.isSome && r.volume.isSome

/-- clean_data step 1: drop rows with a missing value in a required column
(src/sp500_pipeline.py:86). -/
def dropna (rows : List Row) : List Row :=
  rows.filter allPresent

/-- clean_data step 3: `df.drop_duplicates(subset=["date"], keep="last")`
(src/sp500_pipeline.py:92) — for each date keep only the last row carrying it,
preserving the relative order of the kept rows. -/
def drop_duplicates_keep_last : List Row → List Row
  | [] => []
  | r :: rs =>
    if rs.any fun s => s.date = r.date then drop_duplicates_keep_last rs
    else r :: drop_duplicates_keep_last rs

/-- clean_data step 4: `df.sort_values(by="date")` (src/sp500_pipeline.py:95). -/
def sort_values_by_date (rows : List Row) : List Row :=
  rows.mergeSort fun a b => decide (a.date ≤ b.date)

/-- The pandas comparison `df[col] >= 0` on one cell: a missing value compares
false (src/sp500_pipeline.py:99). -/
def colNonNeg (x : Option ℚ) : Bool :=
  match x with
  | some v => decide (0 ≤ v)
  | none => false

/-- clean_data (src/sp500_pipeline.py:69-102): drop missing values, deduplicate
dates keeping the last occurrence, sort by date, then filter each column for
non-negative values in sequence (src/sp500_pipeline.py:98-99). -/
def clean_data (rows : List Row) : List Row :=
  (((((sort_values_by_date (drop_duplicates_keep_last (dropna rows))).filter
      fun r => colNonNeg r.opn).filter
      fun r => colNonNeg r.high).filter
      fun r => colNonNeg r.low).filter
      fun r => colNonNeg r.close).filter
      fun r => colNonNeg r.volume

/-- pandas `Series.rolling(window=w).mean()` as called by
calculate_moving_averages (src/sp500_pipeline.py:121) and by the dashboard
(src/dashboard.py:148-149): entry i is the mean of the trailing w prices when
at least w observations are available, and missing otherwise. -/
def rollingMean (prices : List ℚ) (w : ℕ) : List (Option ℚ) :=
  (List.range prices.length).map fun i =>
    if w ≤ i + 1 then some (((prices.take (i + 1)).drop (i + 1 - w)).sum / (w : ℚ))
    else none

/-- calculate_moving_averages (src/sp500_pipeline.py:108-124): one rolling-mean
column per configured window over the close prices. -/
def calculate_moving_averages (closes : List ℚ) (windows : List ℕ) :
    List (List (Option ℚ)) :=
  windows.map (rollingMean closes)

/-- Modelled from the spec: the crossed-above test of the backtesting library
(called at src/dashboard.py:59) is not part of this repository. Per spec
section 4.2, the signal at i is true iff both indicators are defined at i-1
and at i, fast was less than or equal to slow at i-1, and fast is strictly
greater than slow at i; index 0 and any missing value give false. -/
def crossAboveAt (fast slow : List (Option ℚ)) (i : ℕ) : Bool :=
  if i = 0 then false
  else
    match fast.getD (i - 1) none, slow.getD (i - 1) none,
        fast.getD i none, slow.getD i none with
    | some fp, some sp, some fc, some sc => decide (fp ≤ sp) && decide (sc < fc)
    | _, _, _, _ => false

/-- Modelled from the spec: symmetric crossed-below test
(src/dashboard.py:60, spec section 4.2). -/
def crossBelowAt (fast slow : List (Option ℚ)) (i : ℕ) : Bool :=
  if i = 0 then false
  else
    match fast.getD (i - 1) none, slow.getD (i - 1) none,
        fast.getD i none, slow.getD i none with
    | some fp, some sp, some fc, some sc => decide (sp ≤ fp) && decide (fc < sc)
    | _, _, _, _ => false

/-- Modelled from the spec: the entry-signal series aligned with the fast
indicator series (src/dashboard.py:59). -/
def ma_crossed_above (fast slow : List (Option ℚ)) : List Bool :=
  (List.range fast.length).map (crossAboveAt fast slow)

/-- Modelled from the spec: the exit-signal series aligned with the fast
indicator series (src/dashboard.py:60). -/
def ma_crossed_below (fast slow : List (Option ℚ)) : List Bool :=
  (List.range fast.length).map (crossBelowAt fast slow)

/-- An open long position of the simulator (spec section 3). -/
structure Position where
  quantity : ℚ
  entryIndex : ℕ
  entryPrice : ℚ
deriving DecidableEq

/-- A closed round-trip trade (spec section 3). -/
structure Trade where
  entryIndex : ℕ
  entryPrice : ℚ
  exitIndex : ℕ
  exitPrice : ℚ
  quantity : ℚ
  pnl : ℚ
  returnPct : ℚ
deriving DecidableEq

/-- The simulator state: cash, the open position if any, the closed trades so
far, and the equity curve recorded so far (spec section 4.4). -/
structure SimState where
  cash : ℚ
  pos : Option Position
  trades : List Trade
  equity : List ℚ
deriving DecidableEq

/-- The Trade record produced when position p is liquidated at index i at the
given price (spec section 4.4): profit equals quantity times the price change,
the return percentage is relative to the invested amount. -/
def closeTrade (p : Position) (i : ℕ) (price : ℚ) : Trade :=
  { entryIndex := p.entryIndex
    entryPrice := p.entryPrice
    exitIndex := i
    exitPrice := price
    quantity := p.quantity
    pnl := p.quantity * (price - p.entryPrice)
    returnPct := p.quantity * (price - p.entryPrice) / (p.quantity * p.entryPrice) * 100 }

/-- The equity recorded for a date with the given close price: cash when flat,
mark-to-market value of the position when long (spec section 4.4). -/
def equityValue (st : SimState) (price : ℚ) : ℚ :=
  match st.pos with
  | none => st.cash
  | some p => p.quantity * price

/-- Modelled from the spec: one day of the portfolio replay performed by the
backtesting library (src/dashboard.py:80 is only a call into it). Spec
section 4.4: flat plus entry converts all cash into exact fractional units at
the close price; long plus exit liquidates at the close price and records a
closed Trade; when entry and exit are both set, exit takes precedence; any
other combination leaves the state unchanged. After the transition the equity
for the day is appended. -/
def simStep (prices : List ℚ) (entries exits : List Bool) (st : SimState) (i : ℕ) :
    SimState :=
  let price := prices.getD i 0
  let st1 : SimState :=
    match st.pos with
    | some p =>
      if exits.getD i false then
        { cash := p.quantity * price
          pos := none
          trades := st.trades ++ [closeTrade p i price]
          equity := st.equity }
      else st
    | none =>
      if exits.getD i false then st
      else if entries.getD i false then
        { cash := 0
          pos := some { quantity := st.cash / price, entryIndex := i, entryPrice := price }
          trades := st.trades
          equity := st.equity }
      else st
  { st1 with equity := st1.equity ++ [equityValue st1 price] }

/-- The initial simulator state: all cash, no position, nothing recorded. -/
def initState (cash0 : ℚ) : SimState :=
  { cash := cash0, pos := none, trades := [], equity := [] }

/-- The simulator state after replaying the first n dates. -/
def simulateUpTo (prices : List ℚ) (entries exits : List Bool) (cash0 : ℚ) (n : ℕ) :
    SimState :=
  (List.range n).foldl (simStep prices entries exits) (initState cash0)

/-- Modelled from the spec: the full portfolio replay of the backtesting
library over the sliced inputs (spec section 4.4). -/
def simulate (prices : List ℚ) (entries exits : List Bool) (cash0 : ℚ) : SimState :=
  simulateUpTo prices entries exits cash0 prices.length

/-- The pandas label slice `series.loc[a:b]` on a date-indexed series
(src/dashboard.py:68-70): keep exactly the entries whose date lies in the
inclusive window. -/
def sliceLoc {α : Type} (s : List (ℤ × α)) (a b : ℤ) : List (ℤ × α) :=
  s.filter fun r => decide (a ≤ r.1) && decide (r.1 ≤ b)

/-- The inputs handed to the portfolio simulation by sma_crossover_backtest
(src/dashboard.py:54-74): indicators and signals are computed on the full
history first, then prices and signals are sliced to the selected window when
one is given. -/
def backtestInputs (close : List (ℤ × ℚ)) (shortW longW : ℕ)
    (window : Option (ℤ × ℤ)) : List ℚ × List Bool × List Bool :=
  let dates := close.map Prod.fst
  let prices := close.map Prod.snd
  let fastMA := rollingMean prices shortW
  let slowMA := rollingMean prices longW
  let entries := ma_crossed_above fastMA slowMA
  let exits := ma_crossed_below fastMA slowMA
  match window with
  | some (a, b) =>
    ((sliceLoc close a b).map Prod.snd,
      (sliceLoc (dates.zip entries) a b).map Prod.snd,
      (sliceLoc (dates.zip exits) a b).map Prod.snd)
  | none => (prices, entries, exits)

/-- sma_crossover_backtest (src/dashboard.py:54-81): compute indicators and
signals over the full history, slice to the selected window, return `none`
when the sliced price series is empty (src/dashboard.py:77-78), otherwise
simulate the portfolio with the fixed initial cash of 100000
(src/dashboard.py:80). -/
def sma_crossover_backtest (close : List (ℤ × ℚ)) (shortW longW : ℕ)
    (window : Option (ℤ × ℤ)) : Option SimState :=
  match backtestInputs close shortW longW window with
  | (p, e, x) => if p.isEmpty then none else some (simulate p e x 100000)

/-- Modelled from the spec: the win-rate statistic of the backtesting library
(read at src/dashboard.py:194). Spec section 4.5: undefined when there is no
closed trade, otherwise the percentage of closed trades with positive profit. -/
def winRate (closedTrades : List Trade) : Option ℚ :=
  if closedTrades.length = 0 then none
  else
    some (((closedTrades.filter fun t => decide (0 < t.pnl)).length : ℚ) * 100 /
      (closedTrades.length : ℚ))

/-- What the dashboard shows in the win-rate column. -/
inductive WinRateDisplay where
  | metric (v : ℚ)
  | holding
  | noTrades
deriving DecidableEq

/-- The win-rate rendering branch of the dashboard (src/dashboard.py:202-208):
show the numeric metric when the statistic is defined, otherwise show a
holding marker when there are trades and a no-trades marker when there are
none. -/
def renderWinRate (wr : Option ℚ) (totalTrades : ℕ) : WinRateDisplay :=
  match wr with
  | some v => WinRateDisplay.metric v
  | none => if 0 < totalTrades then WinRateDisplay.holding else WinRateDisplay.noTrades

/-- The end-date anchor of the dashboard (src/dashboard.py:120-126): the
previous calendar day. -/
def anchorEndDate (today : ℤ) : ℤ :=
  today - 1

/-- The start-date anchor of the dashboard (src/dashboard.py:125): the end
date minus the selected duration in days. -/
def anchorStartDate (today durationDays : ℤ) : ℤ :=
  anchorEndDate today - durationDays

/-- The most recent fully-settled trading day relative to the given day: the
latest trading day strictly before it. Used to state claim C6 about the
anchor logic. -/
def mostRecentSettledTradingDay (tradingDays : List ℤ) (today : ℤ) : Option ℤ :=
  (tradingDays.filter fun d => decide (d < today)).max?

/-- save_to_postgres (src/sp500_pipeline.py:130-162). The store is `none`
when the table does not exist yet and `some rows` otherwise. The function
queries the maximum stored date, keeps only the data-frame rows strictly
newer than it (all rows when there is no maximum), and appends them, creating
the table on first run. Returns the new store and the appended rows. -/
def save_to_postgres (store : Option (List Row)) (df : List Row) :
    Option (List Row) × List Row :=
  let lastDate : Option ℤ :=
    match store with
    | none => none
    | some rows => (rows.map Row.date).max?
  let dfNew :=
    match lastDate with
    | some d => df.filter fun r => decide (d < r.date)
    | none => df
  let newStore :=
    match store with
    | none => some dfNew
    | some rows => some (rows ++ dfNew)
  (newStore, dfNew)

/-! ## Helper lemmas -/

theorem rollingMean_getD (prices : List ℚ) (w i : ℕ) (hi : i < prices.length) :
    (rollingMean prices w).getD i none =
      if w ≤ i + 1 then some (((prices.take (i + 1)).drop (i + 1 - w)).sum / (w : ℚ))
      else none := by
  simp [rollingMean, List.getD_eq_getElem?_getD, List.getElem?_map,
    List.getElem?_range, hi]

theorem take_drop_eq_map_range (l : List ℚ) (s w : ℕ) (h : s + w ≤ l.length) :
    (l.take (s + w)).drop s = (List.range w).map fun j => l.getD (s + j) 0 := by
  apply List.ext_getElem
  · simp
    omega
  · intro n h1 h2
    simp only [List.getElem_drop, List.getElem_take, List.getElem_map, List.getElem_range]
    rw [List.getD_eq_getElem]

theorem crossAboveAt_iff (fast slow : List (Option ℚ)) (i : ℕ) :
    crossAboveAt fast slow i = true ↔
      1 ≤ i ∧ ∃ fp sp fc sc,
        fast.getD (i - 1) none = some fp ∧ slow.getD (i - 1) none = some sp ∧
        fast.getD i none = some fc ∧ slow.getD i none = some sc ∧
        fp ≤ sp ∧ sc < fc := by
  unfold crossAboveAt
  rcases Nat.eq_zero_or_pos i with h0 | h1
  · subst h0
    simp
  · rw [if_neg (by omega)]
    rcases hf1 : fast.getD (i - 1) none with _ | fp <;>
      rcases hs1 : slow.getD (i - 1) none with _ | sp <;>
        rcases hf2 : fast.getD i none with _ | fc <;>
          rcases hs2 : slow.getD i none with _ | sc <;>
            simp [h1] <;> exact fun _ _ => h1

theorem crossBelowAt_iff (fast slow : List (Option ℚ)) (i : ℕ) :
    crossBelowAt fast slow i = true ↔
      1 ≤ i ∧ ∃ fp sp fc sc,
        fast.getD (i - 1) none = some fp ∧ slow.getD (i - 1) none = some sp ∧
        fast.getD i none = some fc ∧ slow.getD i none = some sc ∧
        sp ≤ fp ∧ fc < sc := by
  unfold crossBelowAt
  rcases Nat.eq_zero_or_pos i with h0 | h1
  · subst h0
    simp
  · rw [if_neg (by omega)]
    rcases hf1 : fast.getD (i - 1) none with _ | fp <;>
      rcases hs1 : slow.getD (i - 1) none with _ | sp <;>
        rcases hf2 : fast.getD i none with _ | fc <;>
          rcases hs2 : slow.getD i none with _ | sc <;>
            simp [h1] <;> exact fun _ _ => h1

theorem ma_crossed_above_getD (fast slow : List (Option ℚ)) (i : ℕ) :
    (ma_crossed_above fast slow).getD i false =
      if i < fast.length then crossAboveAt fast slow i else false := by
  by_cases hi : i < fast.length
  · simp [ma_crossed_above, List.getD_eq_getElem?_getD, List.getElem?_map,
      List.getElem?_range, hi]
  · have hlen : (ma_crossed_above fast slow).length ≤ i := by
      simp only [ma_crossed_above, List.length_map, List.length_range]
      omega
    rw [List.getD_eq_getElem?_getD, List.getElem?_eq_none hlen]
    simp [hi]

theorem ma_crossed_below_getD (fast slow : List (Option ℚ)) (i : ℕ) :
    (ma_crossed_below fast slow).getD i false =
      if i < fast.length then crossBelowAt fast slow i else false := by
  by_cases hi : i < fast.length
  · simp [ma_crossed_below, List.getD_eq_getElem?_getD, List.getElem?_map,
      List.getElem?_range, hi]
  · have hlen : (ma_crossed_below fast slow).length ≤ i := by
      simp only [ma_crossed_below, List.length_map, List.length_range]
      omega
    rw [List.getD_eq_getElem?_getD, List.getElem?_eq_none hlen]
    simp [hi]

theorem simulateUpTo_succ (prices : List ℚ) (entries exits : List Bool) (cash0 : ℚ)
    (n : ℕ) :
    simulateUpTo prices entries exits cash0 (n + 1) =
      simStep prices entries exits (simulateUpTo prices entries exits cash0 n) n := by
  simp [simulateUpTo, List.range_succ]

/-! ## Claim theorems -/

/-- Claim C3: entry is flagged at i iff both indicators are defined at i-1 and
at i, the fast one was at most the slow one at i-1 and is strictly greater at
i; exit is symmetric; both are false whenever either indicator is undefined at
i or i-1; an exact tie makes both false; and at most one of entry and exit is
true at any index. -/
theorem crossover_signal_spec (fast slow : List (Option ℚ)) (i : ℕ) :
    ((ma_crossed_above fast slow).getD i false = true ↔
      (1 ≤ i ∧ i < fast.length ∧ ∃ fp sp fc sc,
        fast.getD (i - 1) none = some fp ∧ slow.getD (i - 1) none = some sp ∧
        fast.getD i none = some fc ∧ slow.getD i none = some sc ∧
        fp ≤ sp ∧ sc < fc))
    ∧ ((ma_crossed_below fast slow).getD i false = true ↔
      (1 ≤ i ∧ i < fast.length ∧ ∃ fp sp fc sc,
        fast.getD (i - 1) none = some fp ∧ slow.getD (i - 1) none = some sp ∧
        fast.getD i none = some fc ∧ slow.getD i none = some sc ∧
        sp ≤ fp ∧ fc < sc))
    ∧ ((fast.getD i none = none ∨ slow.getD i none = none ∨
        fast.getD (i - 1) none = none ∨ slow.getD (i - 1) none = none) →
      (ma_crossed_above fast slow).getD i false = false ∧
      (ma_crossed_below fast slow).getD i false = false)
    ∧ (∀ v : ℚ, fast.getD i none = some v → slow.getD i none = some v →
      (ma_crossed_above fast slow).getD i false = false ∧
      (ma_crossed_below fast slow).getD i false = false)
    ∧ ¬((ma_crossed_above fast slow).getD i false = true ∧
        (ma_crossed_below fast slow).getD i false = true) := by
  have ha : (ma_crossed_above fast slow).getD i false = true ↔
      (1 ≤ i ∧ i < fast.length ∧ ∃ fp sp fc sc,
        fast.getD (i - 1) none = some fp ∧ slow.getD (i - 1) none = some sp ∧
        fast.getD i none = some fc ∧ slow.getD i none = some sc ∧
        fp ≤ sp ∧ sc < fc) := by
    rw [ma_crossed_above_getD]
    by_cases hi : i < fast.length
    · rw [if_pos hi, crossAboveAt_iff]
      constructor
      · rintro ⟨h1, rest⟩
        exact ⟨h1, hi, rest⟩
      · rintro ⟨h1, -, rest⟩
        exact ⟨h1, rest⟩
    · rw [if_neg hi]
      constructor
      · intro h
        exact absurd h (by simp)
      · rintro ⟨-, hlt, -⟩
        exact absurd hlt hi
  have hb : (ma_crossed_below fast slow).getD i false = true ↔
      (1 ≤ i ∧ i < fast.length ∧ ∃ fp sp fc sc,
        fast.getD (i - 1) none = some fp ∧ slow.getD (i - 1) none = some sp ∧
        fast.getD i none = some fc ∧ slow.getD i none = some sc ∧
        sp ≤ fp ∧ fc < sc) := by
    rw [ma_crossed_below_getD]
    by_cases hi : i < fast.length
    · rw [if_pos hi, crossBelowAt_iff]
      constructor
      · rintro ⟨h1, rest⟩
        exact ⟨h1, hi, rest⟩
      · rintro ⟨h1, -, rest⟩
        exact ⟨h1, rest⟩
    · rw [if_neg hi]
      constructor
      · intro h
        exact absurd h (by simp)
      · rintro ⟨-, hlt, -⟩
        exact absurd hlt hi
  refine ⟨ha, hb, ?_, ?_, ?_⟩
  · intro hnone
    constructor
    · rcases hval : (ma_crossed_above fast slow).getD i false with _ | _
      · rfl
      · obtain ⟨-, -, fp, sp, fc, sc, e1, e2, e3, e4, -, -⟩ := ha.mp hval
        rcases hnone with h | h | h | h <;> simp_all
    · rcases hval : (ma_crossed_below fast slow).getD i false with _ | _
      · rfl
      · obtain ⟨-, -, fp, sp, fc, sc, e1, e2, e3, e4, -, -⟩ := hb.mp hval
        rcases hnone with h | h | h | h <;> simp_all
  · intro v hf hs
    constructor
    · rcases hval : (ma_crossed_above fast slow).getD i false with _ | _
      · rfl
      · obtain ⟨-, -, fp, sp, fc, sc, -, -, e3, e4, -, hlt⟩ := ha.mp hval
        rw [hf] at e3
        rw [hs] at e4
        obtain rfl := Option.some.inj e3
        obtain rfl := Option.some.inj e4
        exact absurd hlt (lt_irrefl _)
    · rcases hval : (ma_crossed_below fast slow).getD i false with _ | _
      · rfl
      · obtain ⟨-, -, fp, sp, fc, sc, -, -, e3, e4, -, hlt⟩ := hb.mp hval
        rw [hf] at e3
        rw [hs] at e4
        obtain rfl := Option.some.inj e3
        obtain rfl := Option.some.inj e4
        exact absurd hlt (lt_irrefl _)
  · rintro ⟨hup, hdn⟩
    obtain ⟨-, -, fp, sp, fc, sc, e1, e2, e3, e4, -, h1⟩ := ha.mp hup
    obtain ⟨-, -, fp2, sp2, fc2, sc2, f1, f2, f3, f4, -, h2⟩ := hb.mp hdn
    rw [e3] at f3
    rw [e4] at f4
    obtain rfl : fc = fc2 := Option.some.inj f3
    obtain rfl : sc = sc2 := Option.some.inj f4
    exact absurd (h1.trans h2) (lt_irrefl _)

/-- Witness for C3: with a concrete fast series crossing above a concrete slow
series at index 1, the entry signal is flagged there. -/
theorem crossover_signal_spec_witness :
    (ma_crossed_above [some 1, some 3] [some 2, some 2]).getD 1 false = true :=
  (crossover_signal_spec [some 1, some 3] [some 2, some 2] 1).1.mpr
    ⟨by norm_num, by norm_num,
      1, 2, 3, 2, rfl, rfl, rfl, rfl, by norm_num, by norm_num⟩

/-- Claim C1: the simulator replays dates in order as a two-state machine.
With st the state before date i and st2 the state after it: flat plus entry
converts all cash into exact fractional units at the close price of date i
and goes long; long plus exit liquidates all units at that price, goes flat
and records a closed Trade whose profit is quantity times the price change;
any other signal-state combination leaves cash, position and trades
unchanged; and in every case the equity recorded for date i is cash when flat
and quantity times the close price when long. The signals are assumed
mutually exclusive, which the crossover generator guarantees. -/
theorem simulator_state_machine (prices : List ℚ) (entries exits : List Bool)
    (cash0 : ℚ) (i : ℕ) (st st2 : SimState) (p : ℚ)
    (hi : i < prices.length)
    (hst : st = simulateUpTo prices entries exits cash0 i)
    (hst2 : st2 = simulateUpTo prices entries exits cash0 (i + 1))
    (hp : p = prices.getD i 0)
    (hme : ¬(entries.getD i false = true ∧ exits.getD i false = true)) :
    (st.pos = none → entries.getD i false = true →
      st2.cash = 0 ∧
      st2.pos = some { quantity := st.cash / p, entryIndex := i, entryPrice := p } ∧
      st2.trades = st.trades)
    ∧ (∀ q : Position, st.pos = some q → exits.getD i false = true →
      st2.cash = q.quantity * p ∧ st2.pos = none ∧
      st2.trades = st.trades ++ [closeTrade q i p] ∧
      (closeTrade q i p).pnl = q.quantity * (p - q.entryPrice) ∧
      (closeTrade q i p).quantity = q.quantity)
    ∧ ((st.pos = none ∧ entries.getD i false = false) ∨
        ((∃ q, st.pos = some q) ∧ exits.getD i false = false) →
      st2.cash = st.cash ∧ st2.pos = st.pos ∧ st2.trades = st.trades)
    ∧ st2.equity = st.equity ++ [equityValue st2 p] := by
  subst hst hst2 hp
  rw [simulateUpTo_succ]
  simp only [List.getD_eq_getElem?_getD] at hme ⊢
  set st := simulateUpTo prices entries exits cash0 i with hstdef
  clear hstdef
  rcases hpos : st.pos with _ | q <;>
    rcases hentry : entries[i]?.getD false with _ | _ <;>
      rcases hexit : exits[i]?.getD false with _ | _
  · -- flat, no entry, no exit
    refine ⟨fun _ hco => absurd hco (by simp), fun q2 hq2 _ => absurd hq2 (by simp),
      fun _ => by simp [simStep, hpos, hentry, hexit], ?_⟩
    simp [simStep, hpos, hentry, hexit, equityValue]
  · -- flat, no entry, exit: exit is a no-op while flat
    refine ⟨fun _ hco => absurd hco (by simp), fun q2 hq2 _ => absurd hq2 (by simp),
      fun _ => by simp [simStep, hpos, hentry, hexit], ?_⟩
    simp [simStep, hpos, hentry, hexit, equityValue]
  · -- flat, entry, no exit: buy with all cash
    refine ⟨fun _ _ => by simp [simStep, hpos, hentry, hexit],
      fun q2 hq2 _ => absurd hq2 (by simp), ?_, ?_⟩
    · rintro (⟨-, hco⟩ | ⟨⟨q2, hco⟩, -⟩) <;> exact absurd hco (by simp)
    · simp [simStep, hpos, hentry, hexit, equityValue]
  · -- flat, entry and exit simultaneously: excluded by hme
    exact absurd ⟨hentry, hexit⟩ hme
  · -- long, no entry, no exit
    refine ⟨fun hco => absurd hco (by simp), fun q2 _ hco => absurd hco (by simp),
      fun _ => by simp [simStep, hpos, hentry, hexit], ?_⟩
    simp [simStep, hpos, hentry, hexit, equityValue]
  · -- long, no entry, exit: liquidate
    refine ⟨fun hco => absurd hco (by simp), ?_, ?_, ?_⟩
    · intro q2 hq2 _
      obtain rfl := Option.some.inj hq2
      refine ⟨?_, ?_, ?_, rfl, rfl⟩ <;> simp [simStep, hpos, hexit]
    · rintro (⟨hco, -⟩ | ⟨-, hco⟩) <;> exact absurd hco (by simp)
    · simp [simStep, hpos, hexit, equityValue]
  · -- long, entry, no exit: entry is ignored while long
    refine ⟨fun hco => absurd hco (by simp), fun q2 _ hco => absurd hco (by simp),
      fun _ => by simp [simStep, hpos, hentry, hexit], ?_⟩
    simp [simStep, hpos, hentry, hexit, equityValue]
  · -- long, entry and exit simultaneously: excluded by hme
    exact absurd ⟨hentry, hexit⟩ hme

/-- Witness for C1: two days of prices with an entry on day 0; after day 0
the simulator holds 100 / 10 units bought at price 10. -/
theorem simulator_state_machine_witness :
    (simulateUpTo [10, 20] [true, false] [false, true] 100 1).pos =
      some { quantity := (100 : ℚ) / 10, entryIndex := 0, entryPrice := 10 } :=
  ((simulator_state_machine [10, 20] [true, false] [false, true] 100 0
    (simulateUpTo [10, 20] [true, false] [false, true] 100 0)
    (simulateUpTo [10, 20] [true, false] [false, true] 100 1)
    10 (by norm_num) rfl rfl rfl (by simp)).1 rfl rfl).2.1

/-- C2: for every price series and window length w at least 1, the
moving-average value at index i is the arithmetic mean of the prices at
indices i-w+1 through i when i is at least w-1, and is undefined (not zero)
otherwise; and the indicator series is computed on the full history, the
date-range slice being merely a subsequence selection applied afterwards. -/
theorem moving_average_spec (prices : List ℚ) (w i : ℕ) (hw : 1 ≤ w)
    (hi : i < prices.length) :
    (w - 1 ≤ i →
      (rollingMean prices w).getD i none =
        some ((((List.range w).map fun j => prices.getD (i + 1 - w + j) 0).sum) / (w : ℚ)))
    ∧ (i < w - 1 → (rollingMean prices w).getD i none = none)
    ∧ ∀ (dates : List ℤ) (a b : ℤ),
        (sliceLoc (dates.zip (rollingMean prices w)) a b).Sublist
          (dates.zip (rollingMean prices w)) := by
  refine ⟨?_, ?_, ?_⟩
  · intro h
    have hw' : w ≤ i + 1 := by omega
    rw [rollingMean_getD prices w i hi, if_pos hw']
    have hs : (i + 1 - w) + w = i + 1 := by omega
    have hmap := take_drop_eq_map_range prices (i + 1 - w) w (by omega)
    rw [hs] at hmap
    rw [hmap]
  · intro h
    rw [rollingMean_getD prices w i hi, if_neg (by omega)]
  · intro dates a b
    exact List.filter_sublist _

/-- Witness for C2 at a concrete input: window 2 over four prices, index 1. -/
theorem moving_average_spec_witness :
    (1 ≤ 2 ∧ 1 < ([1, 2, 3, 4] : List ℚ).length) ∧
      (rollingMean [1, 2, 3, 4] 2).getD 1 none =
        some ((((List.range 2).map
          fun j => ([1, 2, 3, 4] : List ℚ).getD (1 + 1 - 2 + j) 0).sum) / (2 : ℚ)) :=
  ⟨⟨by norm_num, by norm_num⟩,
    (moving_average_spec [1, 2, 3, 4] 2 1 (by norm_num) (by norm_num)).1 (by norm_num)⟩

/-- Claim C4: when no dates of the price series fall inside the selected
window, the backtest returns the explicit empty outcome `none` rather than
computing a portfolio, and that outcome is distinct from every valid result,
in particular from one with zero trades. -/
theorem backtest_empty_slice (close : List (ℤ × ℚ)) (shortW longW : ℕ) (a b : ℤ)
    (h : sliceLoc close a b = []) :
    sma_crossover_backtest close shortW longW (some (a, b)) = none
    ∧ ∀ st : SimState, st.trades = [] → (none : Option SimState) ≠ some st := by
  constructor
  · simp [sma_crossover_backtest, backtestInputs, h]
  · intro st _ hc
    exact Option.noConfusion hc

/-- Witness for C4: a one-day series sliced to a window after its only date
yields the empty outcome. -/
theorem backtest_empty_slice_witness :
    sliceLoc [((0 : ℤ), (5 : ℚ))] 1 2 = [] ∧
      sma_crossover_backtest [((0 : ℤ), (5 : ℚ))] 50 200 (some (1, 2)) = none :=
  ⟨by rfl, (backtest_empty_slice [((0 : ℤ), (5 : ℚ))] 50 200 1 2 (by rfl)).1⟩

/-- Claim C8: the backtest output is a pure function of the sliced prices and
sliced entry/exit signals (the initial cash being the fixed 100000): any two
invocations whose sliced inputs coincide produce identical portfolio results,
and in particular two runs on identical inputs are bit-identical. -/
theorem backtest_deterministic (close close2 : List (ℤ × ℚ)) (sW lW sW2 lW2 : ℕ)
    (win win2 : Option (ℤ × ℤ)) (out out2 : Option SimState)
    (h : backtestInputs close sW lW win = backtestInputs close2 sW2 lW2 win2)
    (ho : out = sma_crossover_backtest close sW lW win)
    (ho2 : out2 = sma_crossover_backtest close2 sW2 lW2 win2) :
    out = out2 := by
  subst ho ho2
  unfold sma_crossover_backtest
  rw [h]

/-- Witness for C8: two runs of the backtest on the same concrete inputs give
the same result. -/
theorem backtest_deterministic_witness :
    sma_crossover_backtest [((0 : ℤ), (10 : ℚ)), (1, 20)] 1 2 none =
      sma_crossover_backtest [((0 : ℤ), (10 : ℚ)), (1, 20)] 1 2 none :=
  backtest_deterministic [((0 : ℤ), (10 : ℚ)), (1, 20)] [((0 : ℤ), (10 : ℚ)), (1, 20)]
    1 2 1 2 none none _ _ rfl rfl rfl

/-- Claim C5: the win rate is undefined (not zero) when there is no closed
trade, in which case the dashboard shows a distinct holding or no-trades
state instead of a numeric metric; with at least one closed trade it equals
the share of closed trades with positive profit times 100 and lies between 0
and 100. -/
theorem win_rate_spec (closedTrades : List Trade) (totalTrades : ℕ) :
    (closedTrades.length = 0 →
      winRate closedTrades = none ∧
      ∀ v : ℚ, renderWinRate (winRate closedTrades) totalTrades ≠ WinRateDisplay.metric v)
    ∧ (0 < closedTrades.length →
      winRate closedTrades =
        some (((closedTrades.filter fun t => decide (0 < t.pnl)).length : ℚ) * 100 /
          (closedTrades.length : ℚ)) ∧
      ∀ v : ℚ, winRate closedTrades = some v → 0 ≤ v ∧ v ≤ 100) := by
  constructor
  · intro h
    have hw : winRate closedTrades = none := by simp [winRate, h]
    refine ⟨hw, fun v => ?_⟩
    rw [hw]
    rcases Nat.eq_zero_or_pos totalTrades with h0 | h1
    · simp [renderWinRate, h0]
    · simp [renderWinRate, h1]
  · intro h
    have hne : closedTrades.length ≠ 0 := by omega
    refine ⟨by rw [winRate, if_neg hne], fun v hv => ?_⟩
    rw [winRate, if_neg hne] at hv
    obtain rfl := (Option.some.inj hv).symm
    have hlen : (0 : ℚ) < (closedTrades.length : ℚ) := by
      exact_mod_cast h
    have hfil : ((closedTrades.filter fun t => decide (0 < t.pnl)).length : ℚ) ≤
        (closedTrades.length : ℚ) := by
      exact_mod_cast List.length_filter_le _ _
    have hfil0 : (0 : ℚ) ≤ ((closedTrades.filter fun t => decide (0 < t.pnl)).length : ℚ) := by
      positivity
    constructor
    · positivity
    · rw [div_le_iff₀ hlen]
      nlinarith

/-- Witness for C5: a single profitable closed trade gives a defined win rate
between 0 and 100. -/
theorem win_rate_spec_witness :
    0 < [Trade.mk 0 10 1 12 1 2 20].length ∧
    ∃ v : ℚ, winRate [Trade.mk 0 10 1 12 1 2 20] = some v ∧ 0 ≤ v ∧ v ≤ 100 := by
  have h := (win_rate_spec [Trade.mk 0 10 1 12 1 2 20] 1).2 (by norm_num)
  exact ⟨by norm_num, _, h.1, h.2 _ h.1⟩

/-- Counterexample to C6: with trading days 0, 1, 2 and the current day 4,
the dashboard anchors the end date to 3 (the previous calendar day), which is
not the most recent fully-settled trading day (that is 2); so the claim that
the end date is resolved to the most recent fully-settled trading day fails. -/
theorem anchor_end_date_counterexample :
    ¬(mostRecentSettledTradingDay [0, 1, 2] 4 = some (anchorEndDate 4) ∧
      anchorStartDate 4 2 = anchorEndDate 4 - 2) := by
  intro h
  have h1 := h.1
  rw [show mostRecentSettledTradingDay [0, 1, 2] 4 = some 2 from by decide] at h1
  rw [show anchorEndDate 4 = 3 from by decide] at h1
  exact absurd (Option.some.inj h1) (by decide)

/-- Claim C6 amended: the dashboard sets the end date of the analysis window
to the previous calendar day — strictly before the current, incomplete day,
but not necessarily a trading day — and the start date to the end date minus
the caller-selected duration in days; the subsequent slice then excludes
every date after the end date. -/
theorem anchor_dates_spec (today durationDays : ℤ) (close : List (ℤ × ℚ)) :
    anchorEndDate today < today
    ∧ anchorStartDate today durationDays = anchorEndDate today - durationDays
    ∧ (sliceLoc close (anchorStartDate today durationDays) (anchorEndDate today)).all
        (fun r => decide (r.1 ≤ anchorEndDate today)) = true := by
  refine ⟨by unfold anchorEndDate; omega, rfl, ?_⟩
  rw [List.all_eq_true]
  intro r hr
  have hmem := List.of_mem_filter hr
  simp only [Bool.and_eq_true, decide_eq_true_eq] at hmem
  simp only [decide_eq_true_eq]
  exact hmem.2

theorem drop_duplicates_keep_last_subset {r : Row} :
    ∀ {l : List Row}, r ∈ drop_duplicates_keep_last l → r ∈ l := by
  intro l
  induction l with
  | nil => intro h; simpa [drop_duplicates_keep_last] using h
  | cons a as ih =>
    intro h
    simp only [drop_duplicates_keep_last] at h
    split at h
    · exact List.mem_cons_of_mem a (ih h)
    · rcases List.mem_cons.mp h with h1 | h1
      · exact h1 ▸ List.mem_cons_self a as
      · exact List.mem_cons_of_mem a (ih h1)

theorem drop_duplicates_keep_last_nodup :
    ∀ l : List Row, ((drop_duplicates_keep_last l).map Row.date).Nodup := by
  intro l
  induction l with
  | nil => simp [drop_duplicates_keep_last]
  | cons a as ih =>
    simp only [drop_duplicates_keep_last]
    split
    · exact ih
    · rename_i hc
      simp only [List.map_cons, List.nodup_cons]
      refine ⟨fun hmem => ?_, ih⟩
      rcases List.mem_map.mp hmem with ⟨s, hs, hdate⟩
      exact hc (List.any_eq_true.mpr
        ⟨s, drop_duplicates_keep_last_subset hs, by simp [hdate]⟩)

theorem sort_values_by_date_pairwise (l : List Row) :
    (sort_values_by_date l).Pairwise fun a b => a.date ≤ b.date := by
  have h := @List.sorted_mergeSort Row (fun a b => decide (a.date ≤ b.date))
    (fun a b c hab hbc => by
      simp only [decide_eq_true_eq] at hab hbc ⊢
      omega)
    (fun a b => by
      simp only [Bool.or_eq_true, decide_eq_true_eq]
      omega) l
  exact h.imp fun hab => by simpa using hab

theorem clean_data_sublist_sorted (rows : List Row) :
    (clean_data rows).Sublist
      (sort_values_by_date (drop_duplicates_keep_last (dropna rows))) := by
  unfold clean_data
  exact ((((List.filter_sublist _).trans (List.filter_sublist _)).trans
    (List.filter_sublist _)).trans (List.filter_sublist _)).trans (List.filter_sublist _)

theorem clean_data_dates_pairwise (rows : List Row) :
    ((clean_data rows).map Row.date).Pairwise (· < ·) := by
  have hperm : (sort_values_by_date (drop_duplicates_keep_last (dropna rows))).Perm
      (drop_duplicates_keep_last (dropna rows)) := List.mergeSort_perm _ _
  have hnd : ((sort_values_by_date (drop_duplicates_keep_last (dropna rows))).map
      Row.date).Nodup :=
    ((hperm.map Row.date).nodup_iff).mpr (drop_duplicates_keep_last_nodup _)
  have hnd2 : ((sort_values_by_date (drop_duplicates_keep_last (dropna rows))).map
      Row.date).Pairwise (fun a b => a ≠ b) := hnd
  have hle := sort_values_by_date_pairwise (drop_duplicates_keep_last (dropna rows))
  have hne : (sort_values_by_date (drop_duplicates_keep_last (dropna rows))).Pairwise
      fun a b => a.date ≠ b.date := List.pairwise_map.mp hnd2
  have hlt : (sort_values_by_date (drop_duplicates_keep_last (dropna rows))).Pairwise
      fun a b => a.date < b.date :=
    (hle.and hne).imp fun hab => lt_of_le_of_ne hab.1 hab.2
  exact List.pairwise_map.mpr
    (List.Pairwise.sublist (clean_data_sublist_sorted rows) hlt)

theorem clean_data_mem {rows : List Row} {r : Row} (h : r ∈ clean_data rows) :
    r ∈ drop_duplicates_keep_last (dropna rows) ∧ r ∈ rows ∧ allPresent r = true ∧
      colNonNeg r.opn = true ∧ colNonNeg r.high = true ∧ colNonNeg r.low = true ∧
      colNonNeg r.close = true ∧ colNonNeg r.volume = true := by
  unfold clean_data at h
  have hvol := List.of_mem_filter h
  have h4 := List.mem_of_mem_filter h
  have hclose := List.of_mem_filter h4
  have h3 := List.mem_of_mem_filter h4
  have hlow := List.of_mem_filter h3
  have h2 := List.mem_of_mem_filter h3
  have hhigh := List.of_mem_filter h2
  have h1 := List.mem_of_mem_filter h2
  have hopn := List.of_mem_filter h1
  have h0 := List.mem_of_mem_filter h1
  have hded : r ∈ drop_duplicates_keep_last (dropna rows) :=
    ((List.mergeSort_perm _ _).mem_iff).mp h0
  have hdropna : r ∈ dropna rows := drop_duplicates_keep_last_subset hded
  exact ⟨hded, List.mem_of_mem_filter hdropna, List.of_mem_filter hdropna,
    hopn, hhigh, hlow, hclose, hvol⟩

theorem drop_duplicates_filter_eq {d : ℤ} :
    ∀ l : List Row,
      (drop_duplicates_keep_last l).filter (fun s => decide (s.date = d)) =
        ((l.filter fun s => decide (s.date = d)).getLast?).toList := by
  intro l
  induction l with
  | nil => simp [drop_duplicates_keep_last]
  | cons a as ih =>
    simp only [drop_duplicates_keep_last]
    split
    · rename_i hc
      by_cases had : a.date = d
      · rw [ih]
        have hfil : (a :: as).filter (fun s => decide (s.date = d)) =
            a :: as.filter (fun s => decide (s.date = d)) := by
          simp [List.filter_cons, had]
        rw [hfil]
        obtain ⟨s, hs, hsd⟩ := List.any_eq_true.mp hc
        have hsd2 : s.date = d := by
          simp only [decide_eq_true_eq] at hsd
          rw [hsd, had]
        have hne : as.filter (fun s => decide (s.date = d)) ≠ [] :=
          List.ne_nil_of_mem (List.mem_filter.mpr ⟨hs, by simp [hsd2]⟩)
        rcases hq : as.filter (fun s => decide (s.date = d)) with _ | ⟨x, xs⟩
        · exact absurd hq hne
        · rw [hq, List.getLast?_cons_cons]
      · have hfil : (a :: as).filter (fun s => decide (s.date = d)) =
            as.filter (fun s => decide (s.date = d)) := by
          simp [List.filter_cons, had]
        rw [ih, hfil]
    · rename_i hc
      by_cases had : a.date = d
      · have hasf : as.filter (fun s => decide (s.date = d)) = [] := by
          rw [List.filter_eq_nil_iff]
          intro s hs
          simp only [decide_eq_true_eq]
          intro hsd
          exact hc (List.any_eq_true.mpr ⟨s, hs, by simp [hsd, had]⟩)
        have hdedf : (drop_duplicates_keep_last as).filter
            (fun s => decide (s.date = d)) = [] := by
          rw [ih, hasf]
          rfl
        have hLHS : (a :: drop_duplicates_keep_last as).filter
            (fun s => decide (s.date = d)) = [a] := by
          simp [List.filter_cons, had, hdedf]
        have hRHS : (a :: as).filter (fun s => decide (s.date = d)) = [a] := by
          simp [List.filter_cons, had, hasf]
        rw [hLHS, hRHS]
        rfl
      · have hfil : (a :: as).filter (fun s => decide (s.date = d)) =
            as.filter (fun s => decide (s.date = d)) := by
          simp [List.filter_cons, had]
        have hfil2 : (a :: drop_duplicates_keep_last as).filter
            (fun s => decide (s.date = d)) =
            (drop_duplicates_keep_last as).filter (fun s => decide (s.date = d)) := by
          simp [List.filter_cons, had]
        rw [hfil2, ih, hfil]

/-- Witness for the amended C6 at a concrete input: current day 4, duration
2, a one-day price series. -/
theorem anchor_dates_spec_witness :
    anchorEndDate 4 < 4
    ∧ anchorStartDate 4 2 = anchorEndDate 4 - 2
    ∧ (sliceLoc [((2 : ℤ), (10 : ℚ))] (anchorStartDate 4 2) (anchorEndDate 4)).all
        (fun r => decide (r.1 ≤ anchorEndDate 4)) = true :=
  anchor_dates_spec 4 2 [((2 : ℤ), (10 : ℚ))]

/-- Claim C7: the output of clean_data is an ordered series with strictly
increasing unique dates; every output row comes from the input, has no
missing value in any of the five required columns, and has only non-negative
values there — missing-value rows having been dropped, duplicate dates
removed, rows sorted by date and negative values filtered out. -/
theorem clean_data_invariants (rows : List Row) :
    ((clean_data rows).map Row.date).Pairwise (· < ·)
    ∧ ∀ r ∈ clean_data rows, r ∈ rows ∧ allPresent r = true ∧
        colNonNeg r.opn = true ∧ colNonNeg r.high = true ∧ colNonNeg r.low = true ∧
        colNonNeg r.close = true ∧ colNonNeg r.volume = true := by
  refine ⟨clean_data_dates_pairwise rows, fun r hr => ?_⟩
  obtain ⟨-, hmem, hap, h1, h2, h3, h4, h5⟩ := clean_data_mem hr
  exact ⟨hmem, hap, h1, h2, h3, h4, h5⟩

/-- Witness for C7: a concrete single clean row passes through clean_data and
satisfies all the claimed column properties. -/
theorem clean_data_invariants_witness :
    Row.mk 1 (some 1) (some 1) (some 1) (some 1) (some 1) ∈
        clean_data [Row.mk 1 (some 1) (some 1) (some 1) (some 1) (some 1)] ∧
      (Row.mk 1 (some 1) (some 1) (some 1) (some 1) (some 1) ∈
          [Row.mk 1 (some 1) (some 1) (some 1) (some 1) (some 1)] ∧
        allPresent (Row.mk 1 (some 1) (some 1) (some 1) (some 1) (some 1)) = true ∧
        colNonNeg (some 1) = true ∧ colNonNeg (some 1) = true ∧
        colNonNeg (some 1) = true ∧ colNonNeg (some 1) = true ∧
        colNonNeg (some 1) = true) := by
  have hmem : Row.mk 1 (some 1) (some 1) (some 1) (some 1) (some 1) ∈
      clean_data [Row.mk 1 (some 1) (some 1) (some 1) (some 1) (some 1)] := by
    simp [clean_data, dropna, drop_duplicates_keep_last, sort_values_by_date,
      allPresent, colNonNeg, List.mergeSort_singleton]
  exact ⟨hmem, (clean_data_invariants _).2 _ hmem⟩

/-- Counterexample to C10: with two rows sharing date 0 where the later one
has a missing close value, clean_data keeps the earlier row (the missing-value
drop runs before the duplicate drop), so the surviving row for that date is
not the last duplicate in input order. -/
theorem clean_data_keep_last_counterexample :
    ¬(∀ r ∈ clean_data [Row.mk 0 (some 1) (some 1) (some 1) (some 1) (some 1),
        Row.mk 0 (some 2) (some 2) (some 2) none (some 2)],
      (([Row.mk 0 (some 1) (some 1) (some 1) (some 1) (some 1),
          Row.mk 0 (some 2) (some 2) (some 2) none (some 2)].filter
            fun s => decide (s.date = r.date)).getLast?) = some r) := by
  intro h
  have hmem : Row.mk 0 (some 1) (some 1) (some 1) (some 1) (some 1) ∈
      clean_data [Row.mk 0 (some 1) (some 1) (some 1) (some 1) (some 1),
        Row.mk 0 (some 2) (some 2) (some 2) none (some 2)] := by
    simp [clean_data, dropna, drop_duplicates_keep_last, sort_values_by_date,
      allPresent, colNonNeg, List.mergeSort_singleton]
  have hlast := h _ hmem
  have heval : (([Row.mk 0 (some 1) (some 1) (some 1) (some 1) (some 1),
      Row.mk 0 (some 2) (some 2) (some 2) none (some 2)].filter
        fun s => decide ((s.date : ℤ) = 0)).getLast?) =
      some (Row.mk 0 (some 2) (some 2) (some 2) none (some 2)) := by
    simp [List.filter_cons]
  rw [heval] at hlast
  have := Option.some.inj hlast
  simp [Row.mk.injEq] at this

/-- Claim C10 amended: on inputs with no missing values, the
duplicate-removal step keeps exactly the last occurrence of each date, so
every row surviving clean_data is the last input row carrying its date, and
the output has at most one row per date. (When the last duplicate carries a
missing value, the missing-value drop removes it first and an earlier
occurrence survives instead, as the counterexample shows; a surviving last
occurrence can also still be removed by the non-negativity filter.) -/
theorem clean_data_keep_last (rows : List Row) (hall : rows.all allPresent = true) :
    (∀ r ∈ clean_data rows,
      (rows.filter fun s => decide (s.date = r.date)).getLast? = some r)
    ∧ ((clean_data rows).map Row.date).Nodup := by
  have hdropna : dropna rows = rows :=
    List.filter_eq_self.mpr (List.all_eq_true.mp hall)
  constructor
  · intro r hr
    have hded : r ∈ drop_duplicates_keep_last rows := by
      have h := (clean_data_mem hr).1
      rwa [hdropna] at h
    have hfil : r ∈ (drop_duplicates_keep_last rows).filter
        (fun s => decide (s.date = r.date)) :=
      List.mem_filter.mpr ⟨hded, by simp⟩
    rw [drop_duplicates_filter_eq] at hfil
    rcases hlast : (rows.filter fun s => decide (s.date = r.date)).getLast? with _ | s
    · rw [hlast] at hfil
      simp at hfil
    · rw [hlast] at hfil
      simp at hfil
      subst hfil
      exact hlast
  · exact List.Pairwise.imp (fun hab => ne_of_lt hab) (clean_data_dates_pairwise rows)

/-- Witness for C10: two all-present rows with the same date; clean_data
keeps only the later one and output dates are unique. -/
theorem clean_data_keep_last_witness :
    ([Row.mk 0 (some 1) (some 1) (some 1) (some 1) (some 1),
        Row.mk 0 (some 2) (some 2) (some 2) (some 2) (some 2)].all allPresent = true) ∧
      ((clean_data [Row.mk 0 (some 1) (some 1) (some 1) (some 1) (some 1),
          Row.mk 0 (some 2) (some 2) (some 2) (some 2) (some 2)]).map Row.date).Nodup :=
  ⟨by rfl,
    (clean_data_keep_last [Row.mk 0 (some 1) (some 1) (some 1) (some 1) (some 1),
      Row.mk 0 (some 2) (some 2) (some 2) (some 2) (some 2)] (by rfl)).2⟩

/-- Claim C9: persistence queries the maximum stored date and appends exactly
the data-frame rows whose date is strictly greater than it; rows with dates
at most the stored maximum are never written; and when no table exists all
rows are written and the table is created. -/
theorem save_to_postgres_spec (df rows : List Row) (m : ℤ)
    (hm : (rows.map Row.date).max? = some m) :
    save_to_postgres none df = (some df, df)
    ∧ save_to_postgres (some rows) df =
        (some (rows ++ df.filter fun r => decide (m < r.date)),
          df.filter fun r => decide (m < r.date))
    ∧ ∀ r ∈ (save_to_postgres (some rows) df).2, ¬(r.date ≤ m) := by
  have h2 : save_to_postgres (some rows) df =
      (some (rows ++ df.filter fun r => decide (m < r.date)),
        df.filter fun r => decide (m < r.date)) := by
    simp [save_to_postgres, hm]
  refine ⟨rfl, h2, fun r hr => ?_⟩
  rw [show (save_to_postgres (some rows) df).2 =
      df.filter fun r => decide (m < r.date) from by rw [h2]] at hr
  have hlt := List.of_mem_filter hr
  simp only [decide_eq_true_eq] at hlt
  omega

/-- Witness for C9: a store whose maximum date is 5 and a data frame with
dates 3 and 7; only the row dated 7 is appended. -/
theorem save_to_postgres_spec_witness :
    (([Row.mk 5 (some 1) (some 1) (some 1) (some 1) (some 1)].map Row.date).max? =
        some 5) ∧
      (save_to_postgres (some [Row.mk 5 (some 1) (some 1) (some 1) (some 1) (some 1)])
          [Row.mk 3 (some 1) (some 1) (some 1) (some 1) (some 1),
            Row.mk 7 (some 1) (some 1) (some 1) (some 1) (some 1)]).2 =
        [Row.mk 7 (some 1) (some 1) (some 1) (some 1) (some 1)] := by
  have h := (save_to_postgres_spec
    [Row.mk 3 (some 1) (some 1) (some 1) (some 1) (some 1),
      Row.mk 7 (some 1) (some 1) (some 1) (some 1) (some 1)]
    [Row.mk 5 (some 1) (some 1) (some 1) (some 1) (some 1)] 5 (by decide)).2.1
  refine ⟨by decide, ?_⟩
  rw [show (save_to_postgres (some [Row.mk 5 (some 1) (some 1) (some 1) (some 1) (some 1)])
      [Row.mk 3 (some 1) (some 1) (some 1) (some 1) (some 1),
        Row.mk 7 (some 1) (some 1) (some 1) (some 1) (some 1)]).2 =
      [Row.mk 3 (some 1) (some 1) (some 1) (some 1) (some 1),
        Row.mk 7 (some 1) (some 1) (some 1) (some 1) (some 1)].filter
          fun r => decide ((5 : ℤ) < r.date) from by rw [h]]
  decide

end SP500



